import Mathlib

/-!
Shallow embedding of the cytube playlist-sort bot (`src/index.ts`) and proofs
of the specification claims about it.

The embedding models:
* `PlaylistItem` (uid, submitter, opaque payload, temp flag);
* the JS array operations used by the handlers (`findIndex` returning an
  optional index, `splice` for removal/insertion, including the JS behaviour
  of `splice(-1, 1)` removing the last element and `splice(afterIndex + 1, 0, v)`
  inserting at the front when `findIndex` returned `-1`);
* `roundRobinSortVideos` (the fairness sorter), `sortCytube` (the move-diff
  generator plus echo-fingerprint recording), and the socket callbacks
  `onMoveVideoCallback`, `onDeleteCallback`, `onQueueCallback`, `onErrorMsg`
  acting on the relevant part of the mutable `Context`
  (`VideoQueue`, `moveVideoRefCounter`, `isAutoSortEnabled`).
-/

namespace CytubeBot

/-- An entry of the playlist: `uid` is the remote-assigned integer identity,
`queueby` the submitter, `mediaId` stands for the opaque media payload and
`temp` for the temp flag (both uninterpreted by the core logic). -/
structure PlaylistItem where
  uid : Int
  queueby : String
  mediaId : String
  temp : Bool
deriving DecidableEq

/-- The payload of a `moveMedia` command / `moveVideo` notification:
"place item `fromUid` immediately after item `afterUid`". -/
structure MoveMediaData where
  fromUid : Int
  afterUid : Int
deriving DecidableEq

/-- The `after` field of a queue (insert) notification: either the
`"prepend"` sentinel or the uid of the item to insert after. -/
inductive QueueAfter where
  | prepend : QueueAfter
  | uid : Int → QueueAfter
deriving DecidableEq

/-- JS `Array.prototype.findIndex`, with `none` playing the role of `-1`. -/
def findIndexP (p : α → Bool) : List α → Option Nat
  | [] => none
  | a :: l => if p a then some 0 else (findIndexP p l).map (· + 1)

/-- JS `arr.splice(i, 1)` for `0 ≤ i`: remove the element at index `i`. -/
def spliceRemove (l : List α) (i : Nat) : List α :=
  l.take i ++ l.drop (i + 1)

/-- JS `arr.splice(i, 0, a)` for `0 ≤ i`: insert `a` at index `i`
(appending at the end when `i ≥ l.length`, as JS clamps the start index). -/
def spliceInsert (l : List α) (i : Nat) (a : α) : List α :=
  l.take i ++ a :: l.drop i

/-! ### The fairness sorter `roundRobinSortVideos`

The JS function builds a `Map` keyed by submitter: the first `forEach` pass
installs every submitter with an empty list (keys end up in first-encounter
order, since `Map.set` on an existing key keeps its position), the second
pass pushes each video onto its submitter's list.  `userToVideoListMap`
renders this: the key list is the order of first occurrence of each
submitter, each key mapped to that submitter's videos in input order. -/

/-- The `Map` keys after the two `forEach` passes: each submitter once, in
the order of first occurrence in the queue. -/
def firstSeenSubmitters : List PlaylistItem → List String
  | [] => []
  | v :: vs => v.queueby :: (firstSeenSubmitters vs).filter (fun u => u ≠ v.queueby)

/-- The literal left-fold rendering of the first `forEach` pass
(`userToVideoListMap.set(video.queueby, [])` keeps first-encounter key
order); proved equal to `firstSeenSubmitters` below in
`firstSeenSubmitters_eq_foldl`. -/
def firstSeenFoldl (q : List PlaylistItem) : List String :=
  q.foldl (fun ks v => if v.queueby ∈ ks then ks else ks ++ [v.queueby]) []

/-- The `Map` contents after both passes: submitters in first-encounter
order, each with the ordered list of their videos. -/
def userToVideoListMap (q : List PlaylistItem) : List (String × List PlaylistItem) :=
  (firstSeenSubmitters q).map (fun u => (u, q.filter (fun v => v.queueby == u)))

/-- `Math.max(...lengths)` used as the round count; the spread of an empty
array gives `-Infinity` and hence zero loop iterations, matching `0` here. -/
def maxVideos (q : List PlaylistItem) : Nat :=
  ((userToVideoListMap q).map (fun p => p.2.length)).foldl max 0

/-- One pass of the inner `for (const userName of userNames)` loop: shift
the head of each submitter's remaining list (if any) onto the output. -/
def roundOnce : List (String × List PlaylistItem) →
    List PlaylistItem × List (String × List PlaylistItem)
  | [] => ([], [])
  | (u, l) :: rest =>
    let (out, rest') := roundOnce rest
    match l with
    | [] => (out, (u, []) :: rest')
    | v :: vs => (v :: out, (u, vs) :: rest')

/-- The outer `for (let _ = 0; _ < maxVideos; _++)` loop. -/
def roundRobinAux : Nat → List (String × List PlaylistItem) → List PlaylistItem
  | 0, _ => []
  | n + 1, gs =>
    let (out, gs') := roundOnce gs
    out ++ roundRobinAux n gs'

/-- `roundRobinSortVideos` from `src/index.ts` (lines 525-543). -/
def roundRobinSortVideos (q : List PlaylistItem) : List PlaylistItem :=
  roundRobinAux (maxVideos q) (userToVideoListMap q)

/-! ### The move-diff generator `sortCytube`

`sortCytubeGo` is the `for (let i = 0; ...)` loop of `sortCytube`
(lines 485-514), recursing over the sorted playlist while carrying the
mutable `toSortPlaylist` working copy, the position `i` and `prevSortedUid`.
`none` models the `TypeError` the JS code would hit reading
`toSortPlaylist[i].uid` out of bounds (never reached on the permutation
inputs the claims quantify over). -/

def sortCytubeGo : List PlaylistItem → List PlaylistItem → Nat → Int →
    Option (List MoveMediaData)
  | [], _, _, _ => some []
  | s :: rest, toSort, i, prev =>
    match toSort[i]? with
    | none => none
    | some t =>
      if prev ≠ -1 ∧ s.uid ≠ t.uid then
        -- findIndex gives -1 when absent; splice(-1, 1) then removes the
        -- last element, which getD (length - 1) reproduces
        let j := (findIndexP (fun v => v.uid == s.uid) toSort).getD (toSort.length - 1)
        match toSort[j]? with
        | none => none
        | some v =>
          (sortCytubeGo rest (spliceInsert (spliceRemove toSort j) i v) (i + 1) s.uid).map
            (fun cs => ⟨s.uid, prev⟩ :: cs)
      else
        sortCytubeGo rest toSort (i + 1) s.uid

/-- The sequence of `moveMedia` commands `sortCytube` emits, given the
current queue (`context.VideoQueue`) and the sorted target playlist. -/
def sortCytubeCmds (current sorted : List PlaylistItem) : Option (List MoveMediaData) :=
  sortCytubeGo sorted current 0 (-1)

/-! ### Context state and the socket callbacks -/

/-- The part of the mutable `Context` the reconciliation claims are about. -/
structure BotState where
  videoQueue : List PlaylistItem
  moveVideoRefCounter : List MoveMediaData
  isAutoSortEnabled : Bool
deriving DecidableEq

/-- `Map.set(key, true)` on the fingerprint map: a no-op when the key is
present, otherwise appended. -/
def mapSet (m : List MoveMediaData) (c : MoveMediaData) : List MoveMediaData :=
  if c ∈ m then m else m ++ [c]

/-- `sortCytube` (lines 485-514) at the state level: emits the diff
commands, records each command's fingerprint (before emitting it) when
auto-sort is enabled, and finally overwrites `context.VideoQueue` with the
sorted playlist. -/
def sortCytube (st : BotState) (sorted : List PlaylistItem) :
    Option (BotState × List MoveMediaData) :=
  (sortCytubeCmds st.videoQueue sorted).map (fun cmds =>
    ({ videoQueue := sorted,
       moveVideoRefCounter :=
         if st.isAutoSortEnabled then cmds.foldl mapSet st.moveVideoRefCounter
         else st.moveVideoRefCounter,
       isAutoSortEnabled := st.isAutoSortEnabled }, cmds))

/-- The mirror mutation performed by `onMoveVideoCallback` on a move
notification that is processed (not suppressed): remove the item with uid
`from`, then re-insert it at `afterIndex + 1`, where a `findIndex` result
of `-1` (uid absent) makes that position `0`, the front.  This is also the
relocation semantics of spec §4.1 used to state diff correctness. -/
def applyMove (q : List PlaylistItem) (c : MoveMediaData) : List PlaylistItem :=
  match findIndexP (fun v => v.uid == c.fromUid) q with
  | none => q
  | some i =>
    match q[i]? with
    | none => q
    | some v =>
      let q' := spliceRemove q i
      let pos := ((findIndexP (fun x => x.uid == c.afterUid) q').map (· + 1)).getD 0
      spliceInsert q' pos v

/-- The mirror mutation of `onMoveVideoCallback`, `none` when the `from`
uid is absent (the JS code would then splice out the last element and
insert `undefined`, poisoning the queue — no claim exercises this). -/
def applyMoveNotification (q : List PlaylistItem) (d : MoveMediaData) :
    Option (List PlaylistItem) :=
  match findIndexP (fun v => v.uid == d.fromUid) q with
  | none => none
  | some _ => some (applyMove q d)

/-- The un-suppressed branch of `onMoveVideoCallback`: apply the move to
the mirror, then re-sort. -/
def processExternalMove (st : BotState) (d : MoveMediaData) :
    Option (BotState × List MoveMediaData) :=
  match applyMoveNotification st.videoQueue d with
  | none => none
  | some q' =>
    sortCytube { st with videoQueue := q' } (roundRobinSortVideos q')

/-- `onMoveVideoCallback` (lines 290-312): ignore entirely when auto-sort
is disabled; consume a pending self-echo fingerprint; otherwise process as
an external change.  The second component is the list of dispatched
`moveMedia` commands. -/
def onMoveVideoCallback (st : BotState) (d : MoveMediaData) :
    Option (BotState × List MoveMediaData) :=
  if ¬ st.isAutoSortEnabled then some (st, [])
  else if d ∈ st.moveVideoRefCounter then
    some ({ st with moveVideoRefCounter := st.moveVideoRefCounter.erase d }, [])
  else processExternalMove st d

/-- `onDeleteCallback` (lines 314-322): ignore when auto-sort is disabled;
otherwise splice out the item at `findIndex(uid)` — which is the LAST item
when the uid is absent, because `findIndex` returns `-1` and
`splice(-1, 1)` removes the final element — then re-sort. -/
def onDeleteCallback (st : BotState) (uid : Int) :
    Option (BotState × List MoveMediaData) :=
  if ¬ st.isAutoSortEnabled then some (st, [])
  else
    let q' := match findIndexP (fun v => v.uid == uid) st.videoQueue with
      | some j => spliceRemove st.videoQueue j
      | none => st.videoQueue.dropLast
    sortCytube { st with videoQueue := q' } (roundRobinSortVideos q')

/-- The mirror mutation of `onQueueCallback`: prepend on the `"prepend"`
sentinel, otherwise insert at `findIndex(after) + 1`, which is the front
when the `after` uid is absent (`findIndex` returns `-1`). -/
def queueInsert (q : List PlaylistItem) (item : PlaylistItem) (after : QueueAfter) :
    List PlaylistItem :=
  match after with
  | .prepend => item :: q
  | .uid a =>
    let pos := ((findIndexP (fun v => v.uid == a) q).map (· + 1)).getD 0
    spliceInsert q pos item

/-- `onQueueCallback` (lines 339-348): mutate the mirror and re-sort.
Note there is no `isAutoSortEnabled` guard in this handler. -/
def onQueueCallback (st : BotState) (item : PlaylistItem) (after : QueueAfter) :
    Option (BotState × List MoveMediaData) :=
  let q' := queueInsert st.videoQueue item after
  sortCytube { st with videoQueue := q' } (roundRobinSortVideos q')

/-- The fixed fatal-error phrase list of `onErrorMsg` (lines 325-331). -/
def criticalErrors : List String :=
  ["Invalid channel name",
   "blocked anonymous users",
   "Unable to join channel",
   "Channel could not be loaded",
   "Invalid login"]

/-- JS `String.prototype.includes`: does `needle` occur contiguously in the
haystack?  (Checked by scanning every suffix for `needle` as a prefix.) -/
def hasSubstring (needle : List Char) : List Char → Bool
  | [] => needle.isEmpty
  | c :: rest => needle.isPrefixOf (c :: rest) || hasSubstring needle rest

/-- `criticalErrors.some(error => response.msg.toLowerCase().includes(error.toLowerCase()))`;
`toLowerCase` is per-character lowering of the string's characters. -/
def isCriticalError (msg : String) : Bool :=
  criticalErrors.any
    (fun e => hasSubstring (e.data.map Char.toLower) (msg.data.map Char.toLower))

/-- `onErrorMsg` (lines 324-337): throw on a critical error (terminating
the session), otherwise log and return, touching no reconciliation state. -/
def onErrorMsg (st : BotState) (msg : String) : Except String BotState :=
  if isCriticalError msg then Except.error msg else Except.ok st

/-- Invariant of the submitter map threaded through the round-robin loop:
submitter keys are distinct, and every video listed under a key was queued
by that submitter. -/
def GroupInv (gs : List (String × List PlaylistItem)) : Prop :=
  (gs.map Prod.fst).Nodup ∧ ∀ p ∈ gs, ∀ v ∈ p.2, v.queueby = p.1

@[simp] theorem findIndexP_nil (p : α → Bool) : findIndexP p [] = none := rfl

theorem findIndexP_cons (p : α → Bool) (a : α) (l : List α) :
    findIndexP p (a :: l) =
      if p a then some 0 else (findIndexP p l).map (· + 1) := rfl

theorem findIndexP_eq_none {p : α → Bool} {l : List α} :
    findIndexP p l = none ↔ ∀ a ∈ l, p a = false := by
  induction l with
  | nil => simp
  | cons a l ih =>
    rw [findIndexP_cons]
    by_cases h : p a = true
    · simp [h]
    · simp only [Bool.not_eq_true] at h
      simp [h, Option.map_eq_none', ih]

theorem findIndexP_isSome_of_mem {p : α → Bool} {l : List α} {a : α}
    (ha : a ∈ l) (hp : p a = true) : (findIndexP p l).isSome := by
  cases h : findIndexP p l with
  | some i => rfl
  | none => rw [findIndexP_eq_none] at h; rw [h a ha] at hp; cases hp

theorem findIndexP_eq_some {p : α → Bool} {l : List α} {i : Nat}
    (h : findIndexP p l = some i) :
    i < l.length ∧ (∀ v, l[i]? = some v → p v = true) ∧
      ∀ k, k < i → ∀ v, l[k]? = some v → p v = false := by
  induction l generalizing i with
  | nil => simp [findIndexP] at h
  | cons a l ih =>
    rw [findIndexP_cons] at h
    by_cases hpa : p a = true
    · rw [if_pos hpa] at h
      cases h
      refine ⟨by simp, ?_, ?_⟩
      · intro v hv; simp at hv; rw [← hv]; exact hpa
      · intro k hk; omega
    · rw [if_neg hpa] at h
      match hrec : findIndexP p l with
      | none => rw [hrec] at h; simp at h
      | some j =>
        rw [hrec] at h; simp at h
        obtain ⟨hlt, hat, hbefore⟩ := ih hrec
        refine ⟨by simp; omega, ?_, ?_⟩
        · intro v hv
          rw [← h, List.getElem?_cons_succ] at hv
          exact hat v hv
        · intro k hk v hv
          match k with
          | 0 =>
            rw [List.getElem?_cons_zero] at hv
            rw [← Option.some_inj.mp hv]
            simpa using hpa
          | k + 1 =>
            rw [List.getElem?_cons_succ] at hv
            exact hbefore k (by omega) v hv

theorem findIndexP_eq_some_of_spec {p : α → Bool} {l : List α} {i : Nat}
    (hi : i < l.length) (hat : ∀ v, l[i]? = some v → p v = true)
    (hbefore : ∀ k, k < i → ∀ v, l[k]? = some v → p v = false) :
    findIndexP p l = some i := by
  induction l generalizing i with
  | nil => simp at hi
  | cons a l ih =>
    rw [findIndexP_cons]
    match i with
    | 0 =>
      rw [if_pos (hat a (by simp))]
    | i + 1 =>
      have hpa : p a = false := hbefore 0 (by omega) a (by simp)
      rw [if_neg (by simp [hpa])]
      have : findIndexP p l = some i := by
        refine ih (by simpa using hi) ?_ ?_
        · intro v hv; exact hat v (by simpa using hv)
        · intro k hk v hv; exact hbefore (k + 1) (by omega) v (by simpa using hv)
      rw [this]; rfl

@[simp] theorem length_spliceInsert (l : List α) (i : Nat) (a : α) (h : i ≤ l.length) :
    (spliceInsert l i a).length = l.length + 1 := by
  rw [spliceInsert]
  simp only [List.length_append, List.length_take, List.length_cons, List.length_drop]
  omega

@[simp] theorem length_spliceRemove (l : List α) (i : Nat) (h : i < l.length) :
    (spliceRemove l i).length = l.length - 1 := by
  rw [spliceRemove]
  simp only [List.length_append, List.length_take, List.length_drop]
  omega

theorem take_spliceInsert (l : List α) (i : Nat) (a : α) (h : i ≤ l.length) :
    (spliceInsert l i a).take (i + 1) = l.take i ++ [a] := by
  rw [spliceInsert, List.take_append_eq_append_take]
  have h1 : (l.take i).length = i := by rw [List.length_take]; omega
  rw [h1]
  have h2 : i + 1 - i = 1 := by omega
  rw [h2]
  congr 1
  exact List.take_of_length_le (by omega)

theorem drop_spliceInsert (l : List α) (i : Nat) (a : α) (h : i ≤ l.length) :
    (spliceInsert l i a).drop (i + 1) = l.drop i := by
  rw [spliceInsert, List.drop_append_eq_append_drop]
  have h1 : (l.take i).length = i := by rw [List.length_take]; omega
  rw [h1]
  have h2 : i + 1 - i = 1 := by omega
  have h3 : (l.take i).drop (i + 1) = [] := by
    apply List.drop_eq_nil_of_le
    rw [List.length_take]; omega
  rw [h2, h3, List.drop_succ_cons, List.drop_zero, List.nil_append]

theorem getElem?_spliceInsert_self (l : List α) (i : Nat) (a : α) (h : i ≤ l.length) :
    (spliceInsert l i a)[i]? = some a := by
  have h1 : (l.take i).length = i := by rw [List.length_take]; omega
  rw [spliceInsert, List.getElem?_append_right (by omega), h1]
  simp

theorem take_spliceRemove (l : List α) (i j : Nat) (h : i ≤ j) :
    (spliceRemove l j).take i = l.take i := by
  rw [spliceRemove, List.take_append_eq_append_take]
  by_cases hl : i ≤ (l.take j).length
  · have h0 : i - (l.take j).length = 0 := by omega
    rw [h0, List.take_zero, List.append_nil, List.take_take]
    congr 1
    omega
  · rw [List.length_take] at hl
    have hlen : l.length < i := by omega
    have e1 : l.take j = l := List.take_of_length_le (by omega)
    have e2 : l.drop (j + 1) = [] := List.drop_eq_nil_of_le (by omega)
    rw [e1, e2, List.take_nil, List.append_nil]

theorem drop_spliceRemove (l : List α) (i j : Nat) (hij : i ≤ j) (hj : j < l.length) :
    (spliceRemove l j).drop i = spliceRemove (l.drop i) (j - i) := by
  rw [spliceRemove, spliceRemove, List.drop_append_eq_append_drop]
  have h1 : (l.take j).length = j := by rw [List.length_take]; omega
  rw [h1]
  congr 1
  · rw [List.drop_take]
  · have h2 : (l.drop i).drop (j - i + 1) = l.drop (j + 1) := by
      rw [List.drop_drop]
      congr 1
      omega
    have h3 : i - j = 0 := by omega
    rw [h3, List.drop_zero, h2]

theorem spliceRemove_perm (l : List α) (j : Nat) (v : α) (h : l[j]? = some v) :
    l.Perm (v :: spliceRemove l j) := by
  have hj : j < l.length := by
    by_contra hc
    rw [List.getElem?_eq_none (by omega)] at h
    cases h
  have hdecomp : l = l.take j ++ v :: l.drop (j + 1) := by
    conv_lhs => rw [← List.take_append_drop j l]
    congr 1
    rw [List.drop_eq_getElem_cons hj]
    congr 1
    rw [List.getElem?_eq_getElem hj] at h
    exact Option.some_inj.mp h
  rw [spliceRemove]
  conv_lhs => rw [hdecomp]
  exact List.perm_middle

theorem spliceInsert_perm (l : List α) (i : Nat) (a : α) :
    (spliceInsert l i a).Perm (a :: l) := by
  rw [spliceInsert]
  have h := @List.perm_middle _ a (l.take i) (l.drop i)
  rwa [List.take_append_drop] at h

/-! ### Permutation invariant of the fairness sorter -/

theorem le_foldl_max_init (l : List Nat) (a : Nat) : a ≤ l.foldl max a := by
  induction l generalizing a with
  | nil => simp
  | cons x l ih =>
    rw [List.foldl_cons]
    exact le_trans (Nat.le_max_left a x) (ih (max a x))

theorem le_foldl_max_of_mem {l : List Nat} {x : Nat} (h : x ∈ l) (a : Nat) :
    x ≤ l.foldl max a := by
  induction l generalizing a with
  | nil => cases h
  | cons y l ih =>
    rw [List.foldl_cons]
    rcases List.mem_cons.mp h with rfl | hmem
    · exact le_trans (Nat.le_max_right a x) (le_foldl_max_init l (max a x))
    · exact ih hmem (max a y)

theorem length_le_maxVideos {q : List PlaylistItem} {p : String × List PlaylistItem}
    (h : p ∈ userToVideoListMap q) : p.2.length ≤ maxVideos q := by
  exact le_foldl_max_of_mem (List.mem_map_of_mem (fun p => p.2.length) h) 0

theorem roundOnce_eq (gs : List (String × List PlaylistItem)) :
    roundOnce gs =
      (gs.filterMap (fun p => p.2.head?), gs.map (fun p => (p.1, p.2.tail))) := by
  induction gs with
  | nil => rfl
  | cons p rest ih =>
    obtain ⟨u, l⟩ := p
    rw [roundOnce, ih]
    cases l <;> simp

theorem flatten_perm_roundOnce (gs : List (String × List PlaylistItem)) :
    ((gs.map Prod.snd).flatten).Perm
      ((roundOnce gs).1 ++ (((roundOnce gs).2.map Prod.snd).flatten)) := by
  rw [roundOnce_eq]
  induction gs with
  | nil => simp
  | cons p rest ih =>
    obtain ⟨u, l⟩ := p
    cases l with
    | nil => simpa using ih
    | cons v vs =>
      simp only [List.map_cons, List.flatten_cons, List.filterMap_cons]
      simp only [List.head?_cons, List.tail_cons]
      refine List.Perm.trans (List.Perm.append_left (v :: vs) ih) ?_
      simp only [List.cons_append]
      refine List.Perm.cons v ?_
      rw [← List.append_assoc, ← List.append_assoc]
      exact List.Perm.append List.perm_append_comm (List.Perm.refl _)

theorem roundRobinAux_perm (n : Nat) (gs : List (String × List PlaylistItem))
    (h : ∀ p ∈ gs, p.2.length ≤ n) :
    (roundRobinAux n gs).Perm ((gs.map Prod.snd).flatten) := by
  induction n generalizing gs with
  | zero =>
    have : (gs.map Prod.snd).flatten = [] := by
      rw [List.flatten_eq_nil_iff]
      intro l hl
      obtain ⟨p, hp, rfl⟩ := List.mem_map.mp hl
      have := h p hp
      exact List.eq_nil_of_length_eq_zero (by omega)
    rw [this, roundRobinAux]
  | succ n ih =>
    rw [roundRobinAux]
    refine List.Perm.symm (List.Perm.trans (flatten_perm_roundOnce gs) ?_)
    refine List.Perm.append_left (roundOnce gs).1 (List.Perm.symm (ih (roundOnce gs).2 ?_))
    intro p hp
    rw [roundOnce_eq] at hp
    obtain ⟨p', hp', hpe⟩ := List.mem_map.mp hp
    have := h p' hp'
    rw [← hpe]
    simp only [List.length_tail]
    omega

theorem mem_firstSeenSubmitters {q : List PlaylistItem} {v : PlaylistItem}
    (h : v ∈ q) : v.queueby ∈ firstSeenSubmitters q := by
  induction q with
  | nil => cases h
  | cons w ws ih =>
    rw [firstSeenSubmitters]
    rcases List.mem_cons.mp h with rfl | hmem
    · exact List.mem_cons_self _ _
    · by_cases he : v.queueby = w.queueby
      · rw [he]; exact List.mem_cons_self _ _
      · refine List.mem_cons_of_mem _ (List.mem_filter.mpr ⟨ih hmem, ?_⟩)
        exact decide_eq_true he

theorem nodup_firstSeenSubmitters (q : List PlaylistItem) :
    (firstSeenSubmitters q).Nodup := by
  induction q with
  | nil => exact List.nodup_nil
  | cons w ws ih =>
    rw [firstSeenSubmitters]
    refine List.Nodup.cons ?_ (List.Nodup.filter _ ih)
    intro hmem
    have := (List.mem_filter.mp hmem).2
    simp at this

theorem count_filter_queueby (q : List PlaylistItem) (a : PlaylistItem) (u : String) :
    List.count a (q.filter (fun v => v.queueby == u)) =
      if a.queueby = u then List.count a q else 0 := by
  by_cases h : a.queueby = u
  · rw [if_pos h, List.count_filter (by simpa using h)]
  · rw [if_neg h, List.count_eq_zero]
    intro hmem
    exact h (by simpa using (List.mem_filter.mp hmem).2)

theorem sum_counts (a : PlaylistItem) (q : List PlaylistItem) (names : List String) :
    ((names.map (fun u => List.count a (q.filter (fun v => v.queueby == u)))).sum =
      (List.count a.queueby names) * List.count a q) := by
  induction names with
  | nil => simp
  | cons u names ih =>
    rw [List.map_cons, List.sum_cons, ih, count_filter_queueby, List.count_cons]
    by_cases h : a.queueby = u
    · rw [if_pos h, if_pos (by simpa using h.symm)]
      ring
    · rw [if_neg h, if_neg (by simpa using fun he => h he.symm)]
      ring

theorem flatten_userToVideoListMap_perm (q : List PlaylistItem) :
    (((userToVideoListMap q).map Prod.snd).flatten).Perm q := by
  rw [List.perm_iff_count]
  intro a
  rw [List.count_flatten, userToVideoListMap, List.map_map, List.map_map]
  have hmap : (List.map ((List.count a ∘ Prod.snd) ∘ fun u =>
        (u, q.filter (fun v => v.queueby == u))) (firstSeenSubmitters q)) =
      (firstSeenSubmitters q).map
        (fun u => List.count a (q.filter (fun v => v.queueby == u))) := rfl
  rw [hmap, sum_counts]
  by_cases hq : a ∈ q
  · rw [List.count_eq_one_of_mem (nodup_firstSeenSubmitters q) (mem_firstSeenSubmitters hq)]
    ring
  · rw [(List.count_eq_zero).mpr hq]
    ring

/-- The output of the fairness sorter is a permutation of its input. -/
theorem roundRobinSortVideos_perm (q : List PlaylistItem) :
    (roundRobinSortVideos q).Perm q := by
  rw [roundRobinSortVideos]
  exact List.Perm.trans
    (roundRobinAux_perm (maxVideos q) (userToVideoListMap q)
      (fun p hp => length_le_maxVideos hp))
    (flatten_userToVideoListMap_perm q)

/-! ### Round-robin fairness -/

theorem groupInv_userToVideoListMap (q : List PlaylistItem) :
    GroupInv (userToVideoListMap q) := by
  constructor
  · rw [userToVideoListMap, List.map_map]
    have hid : (Prod.fst ∘ fun u =>
        ((u, q.filter (fun v => v.queueby == u)) : String × List PlaylistItem)) =
        fun u => u := rfl
    rw [hid, List.map_id']
    exact nodup_firstSeenSubmitters q
  · intro p hp v hv
    rw [userToVideoListMap] at hp
    obtain ⟨u, _, rfl⟩ := List.mem_map.mp hp
    simpa using (List.mem_filter.mp hv).2

theorem groupInv_cons {p : String × List PlaylistItem}
    {gs : List (String × List PlaylistItem)} (h : GroupInv (p :: gs)) : GroupInv gs := by
  obtain ⟨hn, hq⟩ := h
  rw [List.map_cons, List.nodup_cons] at hn
  exact ⟨hn.2, fun p' hp' => hq p' (List.mem_cons_of_mem _ hp')⟩

theorem groupInv_tails {gs : List (String × List PlaylistItem)} (h : GroupInv gs) :
    GroupInv (gs.map (fun p => (p.1, p.2.tail))) := by
  obtain ⟨hn, hq⟩ := h
  constructor
  · rw [List.map_map]
    have hid : (Prod.fst ∘ fun p : String × List PlaylistItem => (p.1, p.2.tail)) =
        Prod.fst := rfl
    rwa [hid]
  · intro p hp v hv
    obtain ⟨p', hp', rfl⟩ := List.mem_map.mp hp
    exact hq p' hp' v (List.mem_of_mem_tail hv)

theorem filter_heads_eq_nil {gs : List (String × List PlaylistItem)} {u : String}
    (hnotin : u ∉ gs.map Prod.fst)
    (hq : ∀ p ∈ gs, ∀ v ∈ p.2, v.queueby = p.1) :
    (gs.filterMap (fun p => p.2.head?)).filter (fun v => v.queueby == u) = [] := by
  induction gs with
  | nil => rfl
  | cons p rest ih =>
    rw [List.filterMap_cons]
    have hrest := ih (fun hc => hnotin (List.mem_cons_of_mem _ hc))
      (fun p' hp' => hq p' (List.mem_cons_of_mem _ hp'))
    cases hh : p.2.head? with
    | none => exact hrest
    | some v =>
      rw [List.filter_cons, if_neg, hrest]
      have hv : v ∈ p.2 := List.mem_of_mem_head? hh
      have : v.queueby = p.1 := hq p (List.mem_cons_self _ _) v hv
      simp only [this]
      intro hc
      exact hnotin (by simp [List.mem_cons]; left; exact (eq_of_beq hc).symm)

theorem filter_heads {gs : List (String × List PlaylistItem)} {u : String}
    {l : List PlaylistItem} (hinv : GroupInv gs) (hmem : (u, l) ∈ gs) :
    (gs.filterMap (fun p => p.2.head?)).filter (fun v => v.queueby == u) =
      l.head?.toList := by
  induction gs with
  | nil => cases hmem
  | cons p rest ih =>
    obtain ⟨hn, hq⟩ := hinv
    rw [List.map_cons, List.nodup_cons] at hn
    rcases List.mem_cons.mp hmem with heq | hmem'
    · subst heq
      rw [List.filterMap_cons]
      have hrest := @filter_heads_eq_nil rest u (by simpa using hn.1)
        (fun p' hp' => hq p' (List.mem_cons_of_mem _ hp'))
      cases hh : l.head? with
      | none => simp [hrest]
      | some v =>
        rw [List.filter_cons, if_pos, hrest]
        · rfl
        · have hv : v ∈ l := List.mem_of_mem_head? hh
          have : v.queueby = u := hq (u, l) (List.mem_cons_self _ _) v hv
          simp [this]
    · have hpu : p.1 ≠ u := by
        intro hc
        exact hn.1 (hc ▸ (List.mem_map.mpr ⟨(u, l), hmem', rfl⟩))
      rw [List.filterMap_cons]
      have hrest := ih (groupInv_cons ⟨by rw [List.map_cons, List.nodup_cons]; exact hn, hq⟩) hmem'
      cases hh : p.2.head? with
      | none => exact hrest
      | some v =>
        rw [List.filter_cons, if_neg, hrest]
        have hv : v ∈ p.2 := List.mem_of_mem_head? hh
        have : v.queueby = p.1 := hq p (List.mem_cons_self _ _) v hv
        simp [this, hpu]

theorem filter_roundRobinAux (n : Nat) (gs : List (String × List PlaylistItem))
    (u : String) (l : List PlaylistItem) (hinv : GroupInv gs) (hmem : (u, l) ∈ gs) :
    (roundRobinAux n gs).filter (fun v => v.queueby == u) = l.take n := by
  induction n generalizing gs l with
  | zero => rw [roundRobinAux, List.take_zero]; rfl
  | succ n ih =>
    rw [roundRobinAux, roundOnce_eq, List.filter_append]
    have h1 := filter_heads hinv hmem
    have h2 := ih (gs.map (fun p => (p.1, p.2.tail))) l.tail (groupInv_tails hinv)
      (List.mem_map.mpr ⟨(u, l), hmem, rfl⟩)
    rw [h1, h2]
    cases l with
    | nil => simp
    | cons v vs => rw [List.take_succ_cons]; rfl

theorem filter_roundRobinAux_notin (n : Nat) (gs : List (String × List PlaylistItem))
    (u : String) (hnotin : u ∉ gs.map Prod.fst)
    (hq : ∀ p ∈ gs, ∀ v ∈ p.2, v.queueby = p.1) :
    (roundRobinAux n gs).filter (fun v => v.queueby == u) = [] := by
  induction n generalizing gs with
  | zero => rfl
  | succ n ih =>
    rw [roundRobinAux, roundOnce_eq, List.filter_append,
      filter_heads_eq_nil hnotin hq, List.nil_append]
    refine ih (gs.map (fun p => (p.1, p.2.tail))) ?_ ?_
    · rw [List.map_map]
      have hid : (Prod.fst ∘ fun p : String × List PlaylistItem => (p.1, p.2.tail)) =
          Prod.fst := rfl
      rwa [hid]
    · intro p hp v hv
      obtain ⟨p', hp', rfl⟩ := List.mem_map.mp hp
      exact hq p' hp' v (List.mem_of_mem_tail hv)

/-- The fairness sorter preserves each submitter's own relative order:
filtering the output to one submitter gives exactly that submitter's
videos in input order. -/
theorem roundRobinSortVideos_filter (q : List PlaylistItem) (u : String) :
    (roundRobinSortVideos q).filter (fun v => v.queueby == u) =
      q.filter (fun v => v.queueby == u) := by
  by_cases hu : u ∈ firstSeenSubmitters q
  · rw [roundRobinSortVideos]
    have hmem : (u, q.filter (fun v => v.queueby == u)) ∈ userToVideoListMap q :=
      List.mem_map.mpr ⟨u, hu, rfl⟩
    rw [filter_roundRobinAux _ _ u _ (groupInv_userToVideoListMap q) hmem]
    exact List.take_of_length_le (length_le_maxVideos hmem)
  · rw [roundRobinSortVideos,
      filter_roundRobinAux_notin _ _ u ?_ (groupInv_userToVideoListMap q).2]
    · symm
      rw [List.filter_eq_nil_iff]
      intro v hv hc
      exact hu ((eq_of_beq hc) ▸ mem_firstSeenSubmitters hv)
    · rw [userToVideoListMap, List.map_map]
      have hid : (Prod.fst ∘ fun u =>
          ((u, q.filter (fun v => v.queueby == u)) : String × List PlaylistItem)) =
          fun u => u := rfl
      rw [hid, List.map_id']
      exact hu

theorem countP_heads_eq_zero {gs : List (String × List PlaylistItem)} {u : String}
    (hnotin : u ∉ gs.map Prod.fst)
    (hq : ∀ p ∈ gs, ∀ v ∈ p.2, v.queueby = p.1) :
    (gs.filterMap (fun p => p.2.head?)).countP (fun v => v.queueby == u) = 0 := by
  rw [List.countP_eq_length_filter, filter_heads_eq_nil hnotin hq]
  rfl

theorem countP_heads_le_one {gs : List (String × List PlaylistItem)} {u : String}
    (hinv : GroupInv gs) :
    (gs.filterMap (fun p => p.2.head?)).countP (fun v => v.queueby == u) ≤ 1 := by
  by_cases hu : u ∈ gs.map Prod.fst
  · obtain ⟨p, hp, hpu⟩ := List.mem_map.mp hu
    have hmem : (u, p.2) ∈ gs := by
      have : p = (u, p.2) := by rw [← hpu]
      rwa [← this]
    rw [List.countP_eq_length_filter, filter_heads hinv hmem]
    cases p.2.head? <;> simp
  · rw [countP_heads_eq_zero hu hinv.2]
    omega

theorem countP_heads_eq_one {gs : List (String × List PlaylistItem)} {u : String}
    {l : List PlaylistItem} (hinv : GroupInv gs) (hmem : (u, l) ∈ gs) (hne : l ≠ []) :
    (gs.filterMap (fun p => p.2.head?)).countP (fun v => v.queueby == u) = 1 := by
  rw [List.countP_eq_length_filter, filter_heads hinv hmem]
  cases l with
  | nil => exact absurd rfl hne
  | cons v vs => rfl

theorem u_mem_names (u w : String) (lu lw : List PlaylistItem)
    (A B C : List (String × List PlaylistItem)) :
    u ∈ (A ++ (u, lu) :: (B ++ (w, lw) :: C)).map Prod.fst := by
  rw [List.map_append, List.map_cons]
  exact List.mem_append_right _ (List.mem_cons_self _ _)

theorem w_mem_names (u w : String) (lu lw : List PlaylistItem)
    (A B C : List (String × List PlaylistItem)) :
    w ∈ (A ++ (u, lu) :: (B ++ (w, lw) :: C)).map Prod.fst := by
  rw [List.map_append, List.map_cons, List.map_append, List.map_cons]
  refine List.mem_append_right _ (List.mem_cons_of_mem _ ?_)
  exact List.mem_append_right _ (List.mem_cons_self _ _)

theorem heads_take_u_of_w {u w : String} :
    ∀ (A B C : List (String × List PlaylistItem)) (lu lw : List PlaylistItem),
    GroupInv (A ++ (u, lu) :: (B ++ (w, lw) :: C)) → lu ≠ [] → ∀ j : Nat,
    1 ≤ (((A ++ (u, lu) :: (B ++ (w, lw) :: C)).filterMap
        (fun p => p.2.head?)).take j).countP (fun v => v.queueby == w) →
    1 ≤ (((A ++ (u, lu) :: (B ++ (w, lw) :: C)).filterMap
        (fun p => p.2.head?)).take j).countP (fun v => v.queueby == u) := by
  intro A
  induction A with
  | nil =>
    intro B C lu lw hinv hlu j hw
    cases lu with
    | nil => exact absurd rfl hlu
    | cons v vs =>
      rw [List.nil_append,
        @List.filterMap_cons_some _ _ (fun p => p.2.head?) (u, v :: vs)
          (B ++ (w, lw) :: C) v rfl] at hw ⊢
      match j with
      | 0 => rw [List.take_zero, List.countP_nil] at hw; omega
      | j + 1 =>
        rw [List.take_succ_cons, List.countP_cons]
        have hv : v.queueby = u :=
          hinv.2 (u, v :: vs) (by rw [List.nil_append]; exact List.mem_cons_self _ _)
            v (List.mem_cons_self _ _)
        rw [if_pos (by simp [hv])]
        omega
  | cons p A' ih =>
    intro B C lu lw hinv hlu j hw
    have hinv' : GroupInv (A' ++ (u, lu) :: (B ++ (w, lw) :: C)) := by
      rw [List.cons_append] at hinv
      exact groupInv_cons hinv
    have hpnotin : p.1 ∉ (A' ++ (u, lu) :: (B ++ (w, lw) :: C)).map Prod.fst := by
      have := hinv.1
      rw [List.cons_append, List.map_cons, List.nodup_cons] at this
      exact this.1
    rw [List.cons_append] at hw ⊢
    cases hh : p.2.head? with
    | none =>
      rw [@List.filterMap_cons_none _ _ (fun p => p.2.head?) p
        (A' ++ (u, lu) :: (B ++ (w, lw) :: C)) hh] at hw ⊢
      exact ih B C lu lw hinv' hlu j hw
    | some v =>
      rw [@List.filterMap_cons_some _ _ (fun p => p.2.head?) p
        (A' ++ (u, lu) :: (B ++ (w, lw) :: C)) v hh] at hw ⊢
      have hvp : v.queueby = p.1 := by
        rw [List.cons_append] at hinv
        exact hinv.2 p (List.mem_cons_self _ _) v (List.mem_of_mem_head? hh)
      match j with
      | 0 => rw [List.take_zero, List.countP_nil] at hw; omega
      | j + 1 =>
        rw [List.take_succ_cons, List.countP_cons] at hw ⊢
        have hpw : p.1 ≠ w := by
          intro hc
          exact hpnotin (hc ▸ w_mem_names u w lu lw A' B C)
        rw [if_neg (by simp [hvp, hpw])] at hw
        have := ih B C lu lw hinv' hlu j (by omega)
        omega

theorem roundRobinAux_fair {u w : String} :
    ∀ (k n : Nat) (A B C : List (String × List PlaylistItem))
      (lu lw : List PlaylistItem) (i : Nat),
    GroupInv (A ++ (u, lu) :: (B ++ (w, lw) :: C)) → k + 1 ≤ lu.length →
    k + 1 ≤ ((roundRobinAux n (A ++ (u, lu) :: (B ++ (w, lw) :: C))).take i).countP
        (fun v => v.queueby == w) →
    k + 1 ≤ ((roundRobinAux n (A ++ (u, lu) :: (B ++ (w, lw) :: C))).take i).countP
        (fun v => v.queueby == u) := by
  intro k
  induction k with
  | zero =>
    intro n A B C lu lw i hinv hlen hw
    match n with
    | 0 => rw [roundRobinAux, List.take_nil, List.countP_nil] at hw; omega
    | n + 1 =>
      rw [roundRobinAux, roundOnce_eq] at hw ⊢
      simp only at hw ⊢
      rw [List.take_append_eq_append_take, List.countP_append] at hw ⊢
      by_cases hi : i ≤ ((A ++ (u, lu) :: (B ++ (w, lw) :: C)).filterMap
          (fun p => p.2.head?)).length
      · have h0 : i - ((A ++ (u, lu) :: (B ++ (w, lw) :: C)).filterMap
            (fun p => p.2.head?)).length = 0 := by omega
        rw [h0, List.take_zero, List.countP_nil] at hw ⊢
        have := heads_take_u_of_w A B C lu lw hinv
          (by intro hc; rw [hc] at hlen; simp at hlen) i (by omega)
        omega
      · have hfull : ((A ++ (u, lu) :: (B ++ (w, lw) :: C)).filterMap
            (fun p => p.2.head?)).take i =
            (A ++ (u, lu) :: (B ++ (w, lw) :: C)).filterMap (fun p => p.2.head?) :=
          List.take_of_length_le (by omega)
        rw [hfull]
        have h1 : ((A ++ (u, lu) :: (B ++ (w, lw) :: C)).filterMap
            (fun p => p.2.head?)).countP (fun v => v.queueby == u) = 1 :=
          countP_heads_eq_one hinv
            (List.mem_append_right _ (List.mem_cons_self _ _))
            (by intro hc; rw [hc] at hlen; simp at hlen)
        omega
  | succ k ih =>
    intro n A B C lu lw i hinv hlen hw
    match n with
    | 0 => rw [roundRobinAux, List.take_nil, List.countP_nil] at hw; omega
    | n + 1 =>
      rw [roundRobinAux, roundOnce_eq] at hw ⊢
      simp only at hw ⊢
      rw [List.take_append_eq_append_take, List.countP_append] at hw ⊢
      have hi : ¬ i ≤ ((A ++ (u, lu) :: (B ++ (w, lw) :: C)).filterMap
          (fun p => p.2.head?)).length := by
        intro hc
        have hble : (((A ++ (u, lu) :: (B ++ (w, lw) :: C)).filterMap
            (fun p => p.2.head?)).take i).countP (fun v => v.queueby == w) ≤ 1 :=
          le_trans (List.Sublist.countP_le _ (List.take_sublist _ _))
            (countP_heads_le_one hinv)
        have h0 : i - ((A ++ (u, lu) :: (B ++ (w, lw) :: C)).filterMap
            (fun p => p.2.head?)).length = 0 := by omega
        rw [h0, List.take_zero, List.countP_nil] at hw
        omega
      have hfull : ((A ++ (u, lu) :: (B ++ (w, lw) :: C)).filterMap
          (fun p => p.2.head?)).take i =
          (A ++ (u, lu) :: (B ++ (w, lw) :: C)).filterMap (fun p => p.2.head?) :=
        List.take_of_length_le (by omega)
      rw [hfull] at hw ⊢
      have ha : ((A ++ (u, lu) :: (B ++ (w, lw) :: C)).filterMap
          (fun p => p.2.head?)).countP (fun v => v.queueby == u) = 1 :=
        countP_heads_eq_one hinv
          (List.mem_append_right _ (List.mem_cons_self _ _))
          (by intro hc; rw [hc] at hlen; simp at hlen)
      have hbw : ((A ++ (u, lu) :: (B ++ (w, lw) :: C)).filterMap
          (fun p => p.2.head?)).countP (fun v => v.queueby == w) ≤ 1 :=
        countP_heads_le_one hinv
      have htails : (A ++ (u, lu) :: (B ++ (w, lw) :: C)).map (fun p => (p.1, p.2.tail)) =
          (A.map (fun p => (p.1, p.2.tail))) ++ (u, lu.tail) ::
            ((B.map (fun p => (p.1, p.2.tail))) ++ (w, lw.tail) ::
              (C.map (fun p => (p.1, p.2.tail)))) := by
        rw [List.map_append, List.map_cons, List.map_append, List.map_cons]
      have hinvt := groupInv_tails hinv
      rw [htails] at hinvt
      have hrec := ih n (A.map (fun p => (p.1, p.2.tail)))
        (B.map (fun p => (p.1, p.2.tail))) (C.map (fun p => (p.1, p.2.tail)))
        lu.tail lw.tail
        (i - ((A ++ (u, lu) :: (B ++ (w, lw) :: C)).filterMap
          (fun p => p.2.head?)).length)
        hinvt (by rw [List.length_tail]; omega) ?_
      · rw [← htails] at hrec
        omega
      · rw [← htails]
        omega

/-! ### Correctness of the move-diff generator

`sortCytubeGo_correct` is the inductive heart: from position `i ≥ 1` on,
provided positions `0..i-1` of the working copy already carry uids distinct
from everything to come (guaranteed by the permutation and nodup
hypotheses), the emitted commands, applied with the relocation semantics
`applyMove`, transform the working copy into `take i` of itself followed by
the remaining target suffix. -/

theorem uid_position_inj {W : List PlaylistItem}
    (hnodup : (W.map PlaylistItem.uid).Nodup) {k m : Nat}
    (hk : k < W.length) (hm : m < W.length)
    (h : W[k].uid = W[m].uid) : k = m := by
  have hk' : k < (W.map PlaylistItem.uid).length := by rw [List.length_map]; omega
  have hm' : m < (W.map PlaylistItem.uid).length := by rw [List.length_map]; omega
  have he : (W.map PlaylistItem.uid)[k] = (W.map PlaylistItem.uid)[m] := by
    rw [List.getElem_map, List.getElem_map]
    exact h
  exact (hnodup.getElem_inj_iff).mp he

theorem sortCytubeGo_cons_skip {s : PlaylistItem} {R' W : List PlaylistItem}
    {i : Nat} {prev : Int} {t : PlaylistItem} (ht : W[i]? = some t)
    (hguard : ¬(prev ≠ -1 ∧ s.uid ≠ t.uid)) :
    sortCytubeGo (s :: R') W i prev = sortCytubeGo R' W (i + 1) s.uid := by
  simp only [sortCytubeGo, ht]
  rw [if_neg hguard]

theorem sortCytubeGo_cons_move {s : PlaylistItem} {R' W : List PlaylistItem}
    {i : Nat} {prev : Int} {t v : PlaylistItem} {j : Nat} (ht : W[i]? = some t)
    (hguard : prev ≠ -1 ∧ s.uid ≠ t.uid)
    (hfind : findIndexP (fun x => x.uid == s.uid) W = some j)
    (hv : W[j]? = some v) :
    sortCytubeGo (s :: R') W i prev =
      (sortCytubeGo R' (spliceInsert (spliceRemove W j) i v) (i + 1) s.uid).map
        (fun cs => ⟨s.uid, prev⟩ :: cs) := by
  simp only [sortCytubeGo, ht, hfind, Option.getD_some]
  rw [if_pos hguard]
  simp only [hv]

theorem applyMove_found {q : List PlaylistItem} {c : MoveMediaData} {j k : Nat}
    {v : PlaylistItem}
    (hfind : findIndexP (fun x => x.uid == c.fromUid) q = some j)
    (hv : q[j]? = some v)
    (hafter : findIndexP (fun x => x.uid == c.afterUid) (spliceRemove q j) = some k) :
    applyMove q c = spliceInsert (spliceRemove q j) (k + 1) v := by
  simp only [applyMove, hfind, hv, hafter, Option.map_some', Option.getD_some]

set_option maxHeartbeats 1000000 in
theorem sortCytubeGo_correct :
    ∀ (R W : List PlaylistItem) (i : Nat) (prev : Int),
    W.length = i + R.length →
    (W.map PlaylistItem.uid).Nodup →
    R.Perm (W.drop i) →
    1 ≤ i →
    W[i - 1]?.map PlaylistItem.uid = some prev →
    (∀ v ∈ W, v.uid ≠ -1) →
    ∃ cmds, sortCytubeGo R W i prev = some cmds ∧
      cmds.foldl applyMove W = W.take i ++ R := by
  intro R
  induction R with
  | nil =>
    intro W i prev hlen _ _ _ _ _
    rw [List.length_nil] at hlen
    refine ⟨[], rfl, ?_⟩
    rw [List.foldl_nil, List.append_nil, List.take_of_length_le (by omega)]
  | cons s R' ih =>
    intro W i prev hlen hnodup hperm hi hprev hneg
    rw [List.length_cons] at hlen
    have hiW : i < W.length := by omega
    have ht : W[i]? = some W[i] := List.getElem?_eq_getElem hiW
    have hsmem : s ∈ W.drop i := (hperm.mem_iff).mp (List.mem_cons_self s R')
    have hsW : s ∈ W := List.Sublist.mem hsmem (List.drop_sublist i W)
    have hprevlt : i - 1 < W.length := by omega
    obtain ⟨x, hx, hxuid⟩ := Option.map_eq_some'.mp hprev
    have hxmem : x ∈ W := by
      have := List.getElem?_eq_getElem hprevlt
      rw [this] at hx
      rw [← Option.some_inj.mp hx]
      exact List.getElem_mem hprevlt
    have hprev_ne : prev ≠ -1 := by
      rw [← hxuid]
      exact hneg x hxmem
    have hinj := List.inj_on_of_nodup_map hnodup
    by_cases hcase : s.uid = W[i].uid
    · -- the working copy already agrees with the target at position i
      have hs : s = W[i] := hinj hsW (List.getElem_mem hiW) hcase
      have hdrop : W.drop i = W[i] :: W.drop (i + 1) := List.drop_eq_getElem_cons hiW
      have hperm' : R'.Perm (W.drop (i + 1)) := by
        rw [hdrop, ← hs] at hperm
        exact hperm.cons_inv
      have hprev' : W[(i + 1) - 1]?.map PlaylistItem.uid = some s.uid := by
        have : i + 1 - 1 = i := by omega
        rw [this, ht, Option.map_some', hs]
      obtain ⟨cmds, hgo, happ⟩ := ih W (i + 1) s.uid (by omega) hnodup hperm'
        (by omega) hprev' hneg
      refine ⟨cmds, ?_, ?_⟩
      · rw [sortCytubeGo_cons_skip ht (fun h => h.2 hcase), hgo]
      · rw [happ, List.take_succ, ht, Option.toList_some, List.append_assoc,
          List.singleton_append, ← hs]
    · -- a relocation command is emitted
      have hguard : prev ≠ -1 ∧ s.uid ≠ W[i].uid := ⟨hprev_ne, hcase⟩
      have hfindsome : (findIndexP (fun x => x.uid == s.uid) W).isSome :=
        findIndexP_isSome_of_mem hsW (by simp)
      obtain ⟨j, hfind⟩ := Option.isSome_iff_exists.mp hfindsome
      obtain ⟨hjlt, hat, hbefore⟩ := findIndexP_eq_some hfind
      have hjuid : W[j].uid = s.uid := by
        have := hat W[j] (List.getElem?_eq_getElem hjlt)
        exact eq_of_beq this
      have hWj : W[j] = s := hinj (List.getElem_mem hjlt) hsW hjuid
      have hge : i ≤ j := by
        by_contra hc
        have hjtake : j < (W.take i).length := by
          rw [List.length_take]; omega
        have hmemtake : s ∈ W.take i := by
          have : (W.take i)[j] = W[j] := List.getElem_take W
          rw [← hWj, ← this]
          exact List.getElem_mem hjtake
        have hWnodup : W.Nodup := List.Nodup.of_map _ hnodup
        have hsplit : (W.take i ++ W.drop i).Nodup := by
          rw [List.take_append_drop]; exact hWnodup
        exact (List.nodup_append.mp hsplit).2.2 hmemtake hsmem
      have hWj? : W[j]? = some s := by
        rw [List.getElem?_eq_getElem hjlt, hWj]
      have hne : j ≠ i := by
        intro hc
        rw [hc, ht] at hWj?
        exact hcase (congrArg PlaylistItem.uid (Option.some_inj.mp hWj?)).symm
      have hgt : i + 1 ≤ j := by omega
      have hlenrem : (spliceRemove W j).length = W.length - 1 :=
        length_spliceRemove W j hjlt
      have hile : i ≤ (spliceRemove W j).length := by omega
      have hlenW' : (spliceInsert (spliceRemove W j) i s).length = W.length := by
        rw [length_spliceInsert _ _ _ hile]; omega
      have hpermW' : (spliceInsert (spliceRemove W j) i s).Perm W :=
        (spliceInsert_perm _ i s).trans (spliceRemove_perm W j s hWj?).symm
      have hnodup' : ((spliceInsert (spliceRemove W j) i s).map PlaylistItem.uid).Nodup :=
        ((hpermW'.map PlaylistItem.uid).nodup_iff).mpr hnodup
      have hdropW' : (spliceInsert (spliceRemove W j) i s).drop (i + 1) =
          spliceRemove (W.drop i) (j - i) := by
        rw [drop_spliceInsert _ _ _ hile, drop_spliceRemove W i j hge hjlt]
      have hdropj : (W.drop i)[j - i]? = some s := by
        rw [List.getElem?_drop]
        have : i + (j - i) = j := by omega
        rw [this]
        exact hWj?
      have hperm' : R'.Perm ((spliceInsert (spliceRemove W j) i s).drop (i + 1)) := by
        rw [hdropW']
        have h1 : (W.drop i).Perm (s :: spliceRemove (W.drop i) (j - i)) :=
          spliceRemove_perm _ _ _ hdropj
        have h2 : (s :: R').Perm (s :: spliceRemove (W.drop i) (j - i)) :=
          hperm.trans h1
        exact h2.cons_inv
      have hprev' : (spliceInsert (spliceRemove W j) i s)[(i + 1) - 1]?.map
          PlaylistItem.uid = some s.uid := by
        have : i + 1 - 1 = i := by omega
        rw [this, getElem?_spliceInsert_self _ _ _ hile, Option.map_some']
      have hneg' : ∀ v ∈ spliceInsert (spliceRemove W j) i s, v.uid ≠ -1 :=
        fun v hv => hneg v ((hpermW'.mem_iff).mp hv)
      obtain ⟨cmds', hgo', happ'⟩ := ih (spliceInsert (spliceRemove W j) i s)
        (i + 1) s.uid (by omega) hnodup' hperm' (by omega) hprev' hneg'
      -- the emitted command, applied with the relocation semantics,
      -- performs exactly the working-copy splice
      have hafter : findIndexP (fun x => x.uid == prev) (spliceRemove W j) =
          some (i - 1) := by
        have hWx : W[i - 1] = x := by
          have := List.getElem?_eq_getElem hprevlt
          rw [this] at hx
          exact Option.some_inj.mp hx
        have hgetrem : ∀ k, k < i → (spliceRemove W j)[k]? = W[k]? := by
          intro k hk
          have h1 : ((spliceRemove W j).take i)[k]? = (spliceRemove W j)[k]? := by
            rw [List.getElem?_take, if_pos hk]
          have h2 : ((W.take i))[k]? = W[k]? := by
            rw [List.getElem?_take, if_pos hk]
          rw [← h1, take_spliceRemove W i j hge, h2]
        refine findIndexP_eq_some_of_spec (by omega) ?_ ?_
        · intro v hv
          rw [hgetrem (i - 1) (by omega), List.getElem?_eq_getElem hprevlt] at hv
          rw [← Option.some_inj.mp hv, hWx, hxuid]
          simp
        · intro k hk v hv
          rw [hgetrem k (by omega), List.getElem?_eq_getElem (by omega : k < W.length)] at hv
          rw [← Option.some_inj.mp hv]
          by_contra hc
          rw [Bool.not_eq_false, beq_iff_eq] at hc
          have hkuid : W[k].uid = W[i - 1].uid := by
            rw [hWx, hxuid, hc]
          have := uid_position_inj hnodup (by omega) hprevlt hkuid
          omega
      have happlycmd : applyMove W ⟨s.uid, prev⟩ =
          spliceInsert (spliceRemove W j) i s := by
        have := @applyMove_found W ⟨s.uid, prev⟩ j (i - 1) s hfind hWj? hafter
        rw [this]
        have : i - 1 + 1 = i := by omega
        rw [this]
      refine ⟨⟨s.uid, prev⟩ :: cmds', ?_, ?_⟩
      · rw [sortCytubeGo_cons_move ht hguard hfind hWj?, hgo']
        rfl
      · rw [List.foldl_cons, happlycmd, happ', take_spliceInsert _ _ _ hile,
          take_spliceRemove W i j hge, List.append_assoc, List.singleton_append]

/-- Diff correctness on pairs whose first elements agree and whose uids
avoid the `-1` sentinel: the emitted commands, applied in order with the
relocation semantics, turn the current order into the target order. -/
theorem sortCytubeCmds_correct (cur tgt : List PlaylistItem)
    (hperm : tgt.Perm cur) (hnodup : (cur.map PlaylistItem.uid).Nodup)
    (hneg : ∀ v ∈ cur, v.uid ≠ -1) (hhead : cur.head? = tgt.head?) :
    ∃ cmds, sortCytubeCmds cur tgt = some cmds ∧ cmds.foldl applyMove cur = tgt := by
  cases cur with
  | nil =>
    have : tgt = [] := List.perm_nil.mp (by simpa using hperm)
    subst this
    exact ⟨[], rfl, rfl⟩
  | cons t0 cur' =>
    cases tgt with
    | nil => exact absurd hperm.symm (by simp [List.perm_nil])
    | cons s0 tgt' =>
      have ht0 : s0 = t0 := by
        rw [List.head?_cons, List.head?_cons] at hhead
        exact (Option.some_inj.mp hhead).symm
      subst ht0
      have hstep : sortCytubeCmds (s0 :: cur') (s0 :: tgt') =
          sortCytubeGo tgt' (s0 :: cur') 1 s0.uid := by
        rw [sortCytubeCmds]
        exact sortCytubeGo_cons_skip (by rw [List.getElem?_cons_zero])
          (fun h => h.1 rfl)
      have hlen : (s0 :: cur').length = 1 + tgt'.length := by
        have := hperm.length_eq
        rw [List.length_cons, List.length_cons] at this
        rw [List.length_cons]
        omega
      obtain ⟨cmds, hgo, happ⟩ := sortCytubeGo_correct tgt' (s0 :: cur') 1 s0.uid
        hlen hnodup hperm.cons_inv (by omega)
        (by rw [List.getElem?_cons_zero]; rfl) hneg
      refine ⟨cmds, by rw [hstep, hgo], ?_⟩
      rw [happ]
      rfl

/-- When current and target coincide, no command is emitted. -/
theorem sortCytubeGo_self :
    ∀ (R W : List PlaylistItem) (i : Nat) (prev : Int), W.drop i = R →
    sortCytubeGo R W i prev = some [] := by
  intro R
  induction R with
  | nil => intro W i prev _; rfl
  | cons s R' ih =>
    intro W i prev hdrop
    have hW : W[i]? = some s := by
      have h0 : (W.drop i)[0]? = W[i + 0]? := List.getElem?_drop W i 0
      rw [hdrop, List.getElem?_cons_zero] at h0
      exact h0.symm
    have hdrop' : W.drop (i + 1) = R' := by
      have : W.drop (i + 1) = (W.drop i).drop 1 := by
        rw [List.drop_drop]
      rw [this, hdrop, List.drop_succ_cons, List.drop_zero]
    rw [sortCytubeGo_cons_skip hW (fun h => h.2 rfl), ih W (i + 1) s.uid hdrop']

/-! ### Helper facts for the handler-level claims -/

theorem hasSubstring_correct (needle : List Char) :
    ∀ hay : List Char, hasSubstring needle hay = true ↔ needle <:+: hay := by
  intro hay
  induction hay with
  | nil =>
    rw [hasSubstring, List.isEmpty_iff, List.infix_nil]
  | cons c rest ih =>
    rw [hasSubstring, Bool.or_eq_true, List.isPrefixOf_iff_prefix, ih,
      List.infix_cons_iff]

theorem roundRobinSortVideos_head (q : List PlaylistItem) (hq : q ≠ []) :
    (roundRobinSortVideos q).head? = q.head? := by
  cases q with
  | nil => exact absurd rfl hq
  | cons v q' =>
    have hmem : (v.queueby, (v :: q').filter (fun x => x.queueby == v.queueby)) ∈
        userToVideoListMap (v :: q') := by
      rw [userToVideoListMap, firstSeenSubmitters, List.map_cons]
      exact List.mem_cons_self _ _
    have hfil : (v :: q').filter (fun x => x.queueby == v.queueby) =
        v :: q'.filter (fun x => x.queueby == v.queueby) :=
      List.filter_cons_of_pos (by simp)
    have hpos : 1 ≤ maxVideos (v :: q') := by
      have := length_le_maxVideos hmem
      rw [hfil, List.length_cons] at this
      omega
    obtain ⟨m, hm⟩ : ∃ m, maxVideos (v :: q') = m + 1 :=
      ⟨maxVideos (v :: q') - 1, by omega⟩
    rw [roundRobinSortVideos, hm, roundRobinAux, roundOnce_eq]
    simp only
    rw [userToVideoListMap, firstSeenSubmitters, List.map_cons, List.filterMap_cons]
    simp only [hfil, List.head?_cons, List.cons_append]

theorem mem_mapSet_self (m : List MoveMediaData) (c : MoveMediaData) :
    c ∈ mapSet m c := by
  rw [mapSet]
  by_cases h : c ∈ m
  · rwa [if_pos h]
  · rw [if_neg h]
    exact List.mem_append_right _ (List.mem_cons_self _ _)

theorem not_mem_erase_mapSet {m : List MoveMediaData} (c : MoveMediaData)
    (hnd : m.Nodup) : c ∉ (mapSet m c).erase c := by
  rw [mapSet]
  by_cases h : c ∈ m
  · rw [if_pos h]
    intro hc
    have h1 : List.count c (m.erase c) = List.count c m - 1 := List.count_erase_self c m
    have h2 : List.count c m ≤ 1 := List.nodup_iff_count_le_one.mp hnd c
    have h3 : 0 < List.count c (m.erase c) := List.count_pos_iff.mpr hc
    omega
  · rw [if_neg h, List.erase_append_right _ h]
    simp [h]

theorem spliceRemove_subset (l : List PlaylistItem) (j : Nat) :
    ∀ x ∈ spliceRemove l j, x ∈ l := by
  intro x hx
  rw [spliceRemove] at hx
  rcases List.mem_append.mp hx with h | h
  · exact List.take_subset _ _ h
  · exact List.drop_subset _ _ h

theorem firstSeenSubmitters_eq_foldl (q : List PlaylistItem) :
    firstSeenFoldl q = firstSeenSubmitters q := by
  have key : ∀ (q : List PlaylistItem) (acc : List String),
      q.foldl (fun ks v => if v.queueby ∈ ks then ks else ks ++ [v.queueby]) acc =
        acc ++ (firstSeenSubmitters q).filter (fun u => decide (u ∉ acc)) := by
    intro q
    induction q with
    | nil => intro acc; simp [firstSeenSubmitters]
    | cons v vs ih =>
      intro acc
      rw [List.foldl_cons, firstSeenSubmitters]
      by_cases hv : v.queueby ∈ acc
      · rw [if_pos hv, ih acc, List.filter_cons]
        rw [if_neg (by simp [hv])]
        congr 1
        rw [List.filter_filter]
        refine List.filter_congr ?_
        intro u _
        by_cases hu : u ∈ acc
        · simp [hu]
        · have : u ≠ v.queueby := fun he => hu (he ▸ hv)
          simp [hu, this]
      · rw [if_neg hv, ih (acc ++ [v.queueby]), List.filter_cons]
        rw [if_pos (by simp [hv])]
        rw [List.append_assoc, List.singleton_append]
        congr 2
        rw [List.filter_filter]
        refine List.filter_congr ?_
        intro u _
        by_cases hu : u ∈ acc
        · simp [hu]
        · by_cases huv : u = v.queueby
          · simp [huv]
          · simp [hu, huv]
  rw [firstSeenFoldl, key q []]
  simp

/-! ### Claim theorems -/

/-- C2: for every input list, the output of `roundRobinSortVideos` is a
permutation of the input (in particular the uid multisets coincide), and
the empty input yields the empty output with no error. -/
theorem C2_sorter_permutation :
    (∀ q : List PlaylistItem, (roundRobinSortVideos q).Perm q ∧
      ((roundRobinSortVideos q).map PlaylistItem.uid).Perm (q.map PlaylistItem.uid)) ∧
    roundRobinSortVideos [] = [] :=
  ⟨fun q => ⟨roundRobinSortVideos_perm q,
    (roundRobinSortVideos_perm q).map PlaylistItem.uid⟩, rfl⟩

/-- C3: `roundRobinSortVideos` preserves each submitter's own relative
order (filtering the output by a submitter gives exactly that submitter's
input videos, in order), and it is round-robin fair: if submitter `u` was
first seen before submitter `w` (witnessed by the decomposition of the
first-seen submitter list) and `u` still has a `k`-th item, then in every
prefix of the output in which `w`'s `k`-th item has already appeared
(`countP ≥ k + 1`), `u`'s `k`-th item has appeared as well — i.e. `w`'s
`k`-th item never appears before `u`'s `k`-th item. -/
theorem C3_round_robin_fairness (q : List PlaylistItem) :
    (∀ u, (roundRobinSortVideos q).filter (fun v => v.queueby == u) =
      q.filter (fun v => v.queueby == u)) ∧
    (∀ u w F1 F2 F3 (k i : Nat),
      firstSeenSubmitters q = F1 ++ u :: (F2 ++ w :: F3) →
      k + 1 ≤ (q.filter (fun v => v.queueby == u)).length →
      k + 1 ≤ ((roundRobinSortVideos q).take i).countP (fun v => v.queueby == w) →
      k + 1 ≤ ((roundRobinSortVideos q).take i).countP (fun v => v.queueby == u)) := by
  constructor
  · exact roundRobinSortVideos_filter q
  · intro u w F1 F2 F3 k i hfs hlen hw
    have hinv := groupInv_userToVideoListMap q
    rw [userToVideoListMap, hfs, List.map_append, List.map_cons, List.map_append,
      List.map_cons] at hinv
    rw [roundRobinSortVideos, userToVideoListMap, hfs, List.map_append, List.map_cons,
      List.map_append, List.map_cons] at hw ⊢
    exact roundRobinAux_fair k (maxVideos q) _ _ _ _ _ i hinv hlen hw

/-- C3 witness: on the queue `[A(u1), B(u2), C(u1)]` the output is
`[A, B, C]`, and in its 2-element prefix submitter u2's first item has
appeared, hence so has u1's first item. -/
theorem C3_round_robin_fairness_witness :
    1 ≤ ((roundRobinSortVideos
        [⟨1, "u1", "a", false⟩, ⟨2, "u2", "b", false⟩, ⟨3, "u1", "c", false⟩]).take 2).countP
      (fun v => v.queueby == "u1") :=
  (C3_round_robin_fairness _).2 "u1" "u2" [] [] [] 0 2 (by decide) (by decide) (by decide)

/-- C8: a queue that is a fixed point of the fairness sorter produces zero
relocation commands when diffed against its own sort. -/
theorem C8_idempotence (q : List PlaylistItem)
    (hnodup : (q.map PlaylistItem.uid).Nodup)
    (hfix : roundRobinSortVideos q = q) :
    sortCytubeCmds q (roundRobinSortVideos q) = some [] := by
  rw [hfix, sortCytubeCmds]
  exact sortCytubeGo_self q q 0 (-1) rfl

/-- C8 witness: the singleton queue is already sorted and yields zero
commands. -/
theorem C8_idempotence_witness :
    sortCytubeCmds [(⟨1, "u1", "a", false⟩ : PlaylistItem)]
      (roundRobinSortVideos [⟨1, "u1", "a", false⟩]) = some [] :=
  C8_idempotence _ (by decide) (by decide)

/-- C1 counterexample: on current `[1, 2, 3]`, target `[3, 2, 1]` (a
permutation with pairwise-distinct uids), `sortCytube` emits only the
single command (move 1 after 2); applying it to the current order yields
`[2, 1, 3]`, not the target.  The generator never emits a command for
position 0 (`prevSortedUid != -1` guard), so a target differing from the
current order in its first element is not reached. -/
theorem C1_diff_counterexample :
    ((([⟨3, "u3", "m3", false⟩, ⟨2, "u2", "m2", false⟩, ⟨1, "u1", "m1", false⟩] :
        List PlaylistItem)).Perm
      [⟨1, "u1", "m1", false⟩, ⟨2, "u2", "m2", false⟩, ⟨3, "u3", "m3", false⟩]) ∧
    (([⟨1, "u1", "m1", false⟩, ⟨2, "u2", "m2", false⟩,
        ⟨3, "u3", "m3", false⟩].map PlaylistItem.uid).Nodup) ∧
    sortCytubeCmds
      [⟨1, "u1", "m1", false⟩, ⟨2, "u2", "m2", false⟩, ⟨3, "u3", "m3", false⟩]
      [⟨3, "u3", "m3", false⟩, ⟨2, "u2", "m2", false⟩, ⟨1, "u1", "m1", false⟩] =
      some [⟨1, 2⟩] ∧
    [(⟨1, 2⟩ : MoveMediaData)].foldl applyMove
      [⟨1, "u1", "m1", false⟩, ⟨2, "u2", "m2", false⟩, ⟨3, "u3", "m3", false⟩] =
      [⟨2, "u2", "m2", false⟩, ⟨1, "u1", "m1", false⟩, ⟨3, "u3", "m3", false⟩] ∧
    ([⟨2, "u2", "m2", false⟩, ⟨1, "u1", "m1", false⟩, ⟨3, "u3", "m3", false⟩] :
        List PlaylistItem) ≠
      [⟨3, "u3", "m3", false⟩, ⟨2, "u2", "m2", false⟩, ⟨1, "u1", "m1", false⟩] := by
  refine ⟨by decide, by decide, by decide, by decide, by decide⟩

/-- C1 (amended): for every pair (current, target) of item lists with
pairwise-distinct uids, none equal to the generator's `-1` front sentinel,
where target is a permutation of current **with the same first element**,
the relocation commands emitted by `sortCytube` are defined and, applied
one at a time in emission order under the relocation semantics
(`applyMove`: remove the item with uid `from`, reinsert it immediately
after the item with uid `after`), transform current into exactly target. -/
theorem C1_diff_correct_amended (current target : List PlaylistItem)
    (hperm : target.Perm current)
    (hnodup : (current.map PlaylistItem.uid).Nodup)
    (hsent : ∀ v ∈ current, v.uid ≠ -1)
    (hhead : current.head? = target.head?) :
    (sortCytubeCmds current target).map
      (fun cmds => cmds.foldl applyMove current) = some target := by
  obtain ⟨cmds, h1, h2⟩ := sortCytubeCmds_correct current target hperm hnodup hsent hhead
  rw [h1, Option.map_some', h2]

/-- C1 witness: a concrete head-preserving pair on which the commands are
emitted and reach the target. -/
theorem C1_diff_correct_amended_witness :
    (sortCytubeCmds
        [⟨1, "u1", "m1", false⟩, ⟨2, "u2", "m2", false⟩, ⟨3, "u3", "m3", false⟩]
        [⟨1, "u1", "m1", false⟩, ⟨3, "u3", "m3", false⟩, ⟨2, "u2", "m2", false⟩]).map
      (fun cmds => cmds.foldl applyMove
        [⟨1, "u1", "m1", false⟩, ⟨2, "u2", "m2", false⟩, ⟨3, "u3", "m3", false⟩]) =
      some [⟨1, "u1", "m1", false⟩, ⟨3, "u3", "m3", false⟩, ⟨2, "u2", "m2", false⟩] :=
  C1_diff_correct_amended _ _ (by decide) (by decide) (by decide) (by decide)

/-- C9 counterexample: an item carrying uid `-1` defeats the
`prevSortedUid != -1` guard.  With current `[-1, 1, 2, 3]` and target
`[-1, 3, 2, 1]` — a permutation with pairwise-distinct uids and equal
first elements — the generator emits only (move 1 after 2) and the applied
result `[-1, 2, 1, 3]` differs from the target. -/
theorem C9_pipeline_counterexample :
    (([⟨-1, "u0", "m0", false⟩, ⟨3, "u3", "m3", false⟩, ⟨2, "u2", "m2", false⟩,
        ⟨1, "u1", "m1", false⟩] : List PlaylistItem).Perm
      [⟨-1, "u0", "m0", false⟩, ⟨1, "u1", "m1", false⟩, ⟨2, "u2", "m2", false⟩,
        ⟨3, "u3", "m3", false⟩]) ∧
    (([⟨-1, "u0", "m0", false⟩, ⟨1, "u1", "m1", false⟩, ⟨2, "u2", "m2", false⟩,
        ⟨3, "u3", "m3", false⟩].map PlaylistItem.uid).Nodup) ∧
    ([⟨-1, "u0", "m0", false⟩, ⟨1, "u1", "m1", false⟩, ⟨2, "u2", "m2", false⟩,
        ⟨3, "u3", "m3", false⟩] : List PlaylistItem).head? =
      ([⟨-1, "u0", "m0", false⟩, ⟨3, "u3", "m3", false⟩, ⟨2, "u2", "m2", false⟩,
        ⟨1, "u1", "m1", false⟩] : List PlaylistItem).head? ∧
    sortCytubeCmds
      [⟨-1, "u0", "m0", false⟩, ⟨1, "u1", "m1", false⟩, ⟨2, "u2", "m2", false⟩,
        ⟨3, "u3", "m3", false⟩]
      [⟨-1, "u0", "m0", false⟩, ⟨3, "u3", "m3", false⟩, ⟨2, "u2", "m2", false⟩,
        ⟨1, "u1", "m1", false⟩] = some [⟨1, 2⟩] ∧
    [(⟨1, 2⟩ : MoveMediaData)].foldl applyMove
      [⟨-1, "u0", "m0", false⟩, ⟨1, "u1", "m1", false⟩, ⟨2, "u2", "m2", false⟩,
        ⟨3, "u3", "m3", false⟩] ≠
      [⟨-1, "u0", "m0", false⟩, ⟨3, "u3", "m3", false⟩, ⟨2, "u2", "m2", false⟩,
        ⟨1, "u1", "m1", false⟩] := by
  refine ⟨by decide, by decide, by decide, by decide, by decide⟩

/-- C9 (amended): the fairness sorter preserves the first element of any
non-empty queue with distinct uids, and the diff generator is correct on
every head-preserving permutation pair whose uids avoid the `-1` sentinel
— which covers every (mirror, fairness-target) pair the reconciliation
pipeline produces for real cytube queues (uids are non-negative). -/
theorem C9_pipeline_amended :
    (∀ q : List PlaylistItem, q ≠ [] → (q.map PlaylistItem.uid).Nodup →
      (roundRobinSortVideos q).head? = q.head?) ∧
    (∀ current target : List PlaylistItem, target.Perm current →
      (current.map PlaylistItem.uid).Nodup →
      (∀ v ∈ current, v.uid ≠ -1) → current.head? = target.head? →
      (sortCytubeCmds current target).map
        (fun cmds => cmds.foldl applyMove current) = some target) := by
  constructor
  · intro q hq _
    exact roundRobinSortVideos_head q hq
  · intro current target hperm hnodup hsent hhead
    obtain ⟨cmds, h1, h2⟩ := sortCytubeCmds_correct current target hperm hnodup hsent hhead
    rw [h1, Option.map_some', h2]

/-- C9 witness: head preservation and diff correctness at concrete inputs. -/
theorem C9_pipeline_amended_witness :
    (roundRobinSortVideos [⟨1, "u1", "a", false⟩, ⟨2, "u2", "b", false⟩]).head? =
      ([⟨1, "u1", "a", false⟩, ⟨2, "u2", "b", false⟩] : List PlaylistItem).head? ∧
    (sortCytubeCmds [⟨1, "u1", "a", false⟩, ⟨2, "u2", "b", false⟩]
        [⟨1, "u1", "a", false⟩, ⟨2, "u2", "b", false⟩]).map
      (fun cmds => cmds.foldl applyMove
        [⟨1, "u1", "a", false⟩, ⟨2, "u2", "b", false⟩]) =
      some [⟨1, "u1", "a", false⟩, ⟨2, "u2", "b", false⟩] :=
  ⟨C9_pipeline_amended.1 _ (by decide) (by decide),
   C9_pipeline_amended.2 _ _ (by decide) (by decide) (by decide) (by decide)⟩

/-- C4: with auto-sort enabled, recording a command's fingerprint (as
`sortCytube` does before emitting the command) and then receiving one move
notification with matching (from, after) fields consumes it: the
fingerprint is removed, the mirror is untouched and nothing is dispatched;
the fingerprint is then gone from the pending set, so a second identical
notification with no new recording is not suppressed and is handed to the
external-change path. -/
theorem C4_echo_suppression (st : BotState) (c : MoveMediaData)
    (hEn : st.isAutoSortEnabled = true)
    (hNd : st.moveVideoRefCounter.Nodup) :
    onMoveVideoCallback
        { st with moveVideoRefCounter := mapSet st.moveVideoRefCounter c } c =
      some ({ st with
        moveVideoRefCounter := (mapSet st.moveVideoRefCounter c).erase c }, []) ∧
    c ∉ (mapSet st.moveVideoRefCounter c).erase c ∧
    onMoveVideoCallback
        { st with moveVideoRefCounter := (mapSet st.moveVideoRefCounter c).erase c } c =
      processExternalMove
        { st with moveVideoRefCounter := (mapSet st.moveVideoRefCounter c).erase c } c := by
  have h2 : c ∉ (mapSet st.moveVideoRefCounter c).erase c := not_mem_erase_mapSet c hNd
  refine ⟨?_, h2, ?_⟩
  · rw [onMoveVideoCallback,
      if_neg (by simp [hEn]), if_pos (mem_mapSet_self st.moveVideoRefCounter c)]
  · rw [onMoveVideoCallback, if_neg (by simp [hEn]), if_neg h2]

/-- C4 witness: the cycle at a concrete state and fingerprint. -/
theorem C4_echo_suppression_witness :
    onMoveVideoCallback ⟨[], mapSet [] ⟨1, 2⟩, true⟩ ⟨1, 2⟩ =
      some (⟨[], (mapSet [] ⟨1, 2⟩).erase ⟨1, 2⟩, true⟩, []) ∧
    (⟨1, 2⟩ : MoveMediaData) ∉ (mapSet [] ⟨1, 2⟩).erase ⟨1, 2⟩ ∧
    onMoveVideoCallback ⟨[], (mapSet [] ⟨1, 2⟩).erase ⟨1, 2⟩, true⟩ ⟨1, 2⟩ =
      processExternalMove ⟨[], (mapSet [] ⟨1, 2⟩).erase ⟨1, 2⟩, true⟩ ⟨1, 2⟩ :=
  C4_echo_suppression ⟨[], [], true⟩ ⟨1, 2⟩ rfl (by decide)

/-- C5 counterexample: with auto-sort disabled, a queue (insert)
notification still mutates the mirror AND dispatches a relocation command
(`onQueueCallback` has no `isAutoSortEnabled` guard), and a delete
notification does not mutate the mirror at all (the handler returns
immediately), unlike the enabled run of the same notification. -/
theorem C5_disabled_counterexample :
    onQueueCallback
        ⟨[⟨1, "u1", "a", false⟩, ⟨3, "u1", "c", false⟩, ⟨2, "u2", "b", false⟩], [], false⟩
        ⟨4, "u2", "d", false⟩ QueueAfter.prepend =
      some (⟨[⟨4, "u2", "d", false⟩, ⟨1, "u1", "a", false⟩, ⟨2, "u2", "b", false⟩,
        ⟨3, "u1", "c", false⟩], [], false⟩, [⟨2, 1⟩]) ∧
    ([⟨2, 1⟩] : List MoveMediaData) ≠ [] ∧
    onDeleteCallback ⟨[⟨1, "u1", "a", false⟩], [], false⟩ 1 =
      some (⟨[⟨1, "u1", "a", false⟩], [], false⟩, []) ∧
    onDeleteCallback ⟨[⟨1, "u1", "a", false⟩], [], true⟩ 1 =
      some (⟨[], [], true⟩, []) := by
  refine ⟨by decide, by decide, by decide, by decide⟩

/-- C5 (amended): while auto-sort is disabled, move and delete
notifications are ignored entirely — no mirror mutation and no dispatched
commands; an insert (queue) notification still mutates the mirror and
still runs the recompute/diff/dispatch pipeline, emitting its commands
(only the fingerprint recording is skipped, leaving the pending-echo map
unchanged). -/
theorem C5_disabled_resort_amended (st : BotState)
    (h : st.isAutoSortEnabled = false) :
    (∀ d, onMoveVideoCallback st d = some (st, [])) ∧
    (∀ uid, onDeleteCallback st uid = some (st, [])) ∧
    (∀ item after,
      onQueueCallback st item after =
        (sortCytubeCmds (queueInsert st.videoQueue item after)
            (roundRobinSortVideos (queueInsert st.videoQueue item after))).map
          (fun cmds =>
            ({ videoQueue :=
                 roundRobinSortVideos (queueInsert st.videoQueue item after),
               moveVideoRefCounter := st.moveVideoRefCounter,
               isAutoSortEnabled := false }, cmds))) := by
  refine ⟨?_, ?_, ?_⟩
  · intro d
    rw [onMoveVideoCallback, if_pos (by simp [h])]
  · intro uid
    rw [onDeleteCallback, if_pos (by simp [h])]
  · intro item after
    rw [onQueueCallback, sortCytube]
    simp only [h, if_false]
    rfl

/-- C5 witness: the amended behaviour at a concrete disabled state. -/
theorem C5_disabled_resort_amended_witness :
    onMoveVideoCallback ⟨[], [], false⟩ ⟨1, 2⟩ = some (⟨[], [], false⟩, []) ∧
    onDeleteCallback ⟨[], [], false⟩ 7 = some (⟨[], [], false⟩, []) :=
  ⟨(C5_disabled_resort_amended ⟨[], [], false⟩ rfl).1 ⟨1, 2⟩,
   (C5_disabled_resort_amended ⟨[], [], false⟩ rfl).2.1 7⟩

/-- C6: the claim describes the intended behaviour (delete of an absent
uid should fail with ReferenceNotFound, request a resync and remove
nothing); the code instead hits `findIndex = -1`, and `splice(-1, 1)`
removes the LAST item of the mirror, then re-sorts and proceeds — no error
is signalled, no resync exists anywhere in the code, and an unrelated item
is lost.  Evaluated here at the failing input: mirror `[1, 2]`, delete
uid 99 → item 2 is removed. -/
theorem C6_delete_absent_failing_input :
    ((99 : Int) ∉ ([⟨1, "u1", "a", false⟩, ⟨2, "u2", "b", false⟩].map PlaylistItem.uid)) ∧
    onDeleteCallback ⟨[⟨1, "u1", "a", false⟩, ⟨2, "u2", "b", false⟩], [], true⟩ 99 =
      some (⟨[⟨1, "u1", "a", false⟩], [], true⟩, []) ∧
    (⟨2, "u2", "b", false⟩ : PlaylistItem) ∈
      ([⟨1, "u1", "a", false⟩, ⟨2, "u2", "b", false⟩] : List PlaylistItem) ∧
    (⟨2, "u2", "b", false⟩ : PlaylistItem) ∉
      ([⟨1, "u1", "a", false⟩] : List PlaylistItem) := by
  refine ⟨by decide, by decide, by decide, by decide⟩

/-- C7: the error handler throws (terminating the session) exactly when
the message contains, case-insensitively, one of the five fixed fatal
phrases; otherwise it returns normally with the reconciliation state
untouched. -/
theorem C7_fatal_error_classification (st : BotState) (msg : String) :
    (onErrorMsg st msg = Except.error msg ↔
      ∃ e ∈ criticalErrors, (e.data.map Char.toLower) <:+: (msg.data.map Char.toLower)) ∧
    (onErrorMsg st msg = Except.ok st ↔
      ¬ ∃ e ∈ criticalErrors, (e.data.map Char.toLower) <:+: (msg.data.map Char.toLower)) := by
  have hcrit : isCriticalError msg = true ↔
      ∃ e ∈ criticalErrors, (e.data.map Char.toLower) <:+: (msg.data.map Char.toLower) := by
    rw [isCriticalError, List.any_eq_true]
    constructor
    · rintro ⟨e, he, hd⟩
      exact ⟨e, he, (hasSubstring_correct _ _).mp hd⟩
    · rintro ⟨e, he, hd⟩
      exact ⟨e, he, (hasSubstring_correct _ _).mpr hd⟩
  rw [onErrorMsg]
  by_cases hc : isCriticalError msg = true
  · rw [if_pos hc]
    constructor
    · exact ⟨fun _ => hcrit.mp hc, fun _ => rfl⟩
    · constructor
      · intro habs
        cases habs
      · intro hnex
        exact absurd (hcrit.mp hc) hnex
  · rw [if_neg hc]
    constructor
    · constructor
      · intro habs
        cases habs
      · intro hex
        exact absurd (hcrit.mpr hex) hc
    · exact ⟨fun _ => fun hex => hc (hcrit.mpr hex), fun _ => rfl⟩

/-- C7 witness: a fatal phrase (case-insensitively) throws; an advisory
message returns with the state unchanged. -/
theorem C7_fatal_error_classification_witness :
    onErrorMsg ⟨[], [], true⟩ "oops INVALID Login today" =
      Except.error "oops INVALID Login today" ∧
    onErrorMsg ⟨[], [], true⟩ "just a warning" = Except.ok ⟨[], [], true⟩ :=
  ⟨(C7_fatal_error_classification ⟨[], [], true⟩ _).1.mpr
      ⟨"Invalid login", by decide, (hasSubstring_correct _ _).mp (by decide)⟩,
   (C7_fatal_error_classification ⟨[], [], true⟩ _).2.mpr (by
      rintro ⟨e, he, hd⟩
      have hb := (hasSubstring_correct _ _).mpr hd
      fin_cases he <;> revert hb <;> decide)⟩

/-- C10: a move notification whose `after` uid is absent from the mirror
(but whose moved item is present) places the moved item at index 0 and
reconciliation proceeds normally into the re-sort; an insert notification
whose `after` is neither the `"prepend"` sentinel nor a present uid places
the new item at index 0 and likewise proceeds.  No error is signalled in
either case (`findIndex` returns `-1` and `splice(-1 + 1, 0, v)` inserts
at the front). -/
theorem C10_absent_after_reference (st : BotState) (d : MoveMediaData)
    (item : PlaylistItem) (a : Int) (jf : Nat) (v : PlaylistItem)
    (hEn : st.isAutoSortEnabled = true)
    (hNotPending : d ∉ st.moveVideoRefCounter)
    (hfrom : findIndexP (fun x => x.uid == d.fromUid) st.videoQueue = some jf)
    (hv : st.videoQueue[jf]? = some v)
    (hafter : ∀ x ∈ st.videoQueue, x.uid ≠ d.afterUid)
    (hins : ∀ x ∈ st.videoQueue, x.uid ≠ a) :
    applyMoveNotification st.videoQueue d =
      some (v :: spliceRemove st.videoQueue jf) ∧
    onMoveVideoCallback st d =
      sortCytube { st with videoQueue := v :: spliceRemove st.videoQueue jf }
        (roundRobinSortVideos (v :: spliceRemove st.videoQueue jf)) ∧
    queueInsert st.videoQueue item (QueueAfter.uid a) = item :: st.videoQueue ∧
    onQueueCallback st item (QueueAfter.uid a) =
      sortCytube { st with videoQueue := item :: st.videoQueue }
        (roundRobinSortVideos (item :: st.videoQueue)) := by
  have hfindafter : findIndexP (fun x => x.uid == d.afterUid)
      (spliceRemove st.videoQueue jf) = none := by
    rw [findIndexP_eq_none]
    intro x hx
    exact beq_eq_false_iff_ne.mpr (hafter x (spliceRemove_subset _ _ x hx))
  have happ : applyMove st.videoQueue d = v :: spliceRemove st.videoQueue jf := by
    simp only [applyMove, hfrom, hv, hfindafter, Option.map_none', Option.getD_none]
    rfl
  have hnotif : applyMoveNotification st.videoQueue d =
      some (v :: spliceRemove st.videoQueue jf) := by
    simp only [applyMoveNotification, hfrom, happ]
  have hqi : queueInsert st.videoQueue item (QueueAfter.uid a) =
      item :: st.videoQueue := by
    have hnone : findIndexP (fun x => x.uid == a) st.videoQueue = none := by
      rw [findIndexP_eq_none]
      intro x hx
      exact beq_eq_false_iff_ne.mpr (hins x hx)
    simp only [queueInsert, hnone, Option.map_none', Option.getD_none]
    rfl
  refine ⟨hnotif, ?_, hqi, ?_⟩
  · rw [onMoveVideoCallback, if_neg (by simp [hEn]), if_neg hNotPending,
      processExternalMove, hnotif]
  · rw [onQueueCallback, hqi]

/-- C10 witness: mirror `[1, 2, 3]`, move (from 2, after 99) puts item 2
in front; insert of item 4 after the absent uid 77 puts it in front. -/
theorem C10_absent_after_reference_witness :
    applyMoveNotification
        [⟨1, "u1", "a", false⟩, ⟨2, "u2", "b", false⟩, ⟨3, "u1", "c", false⟩] ⟨2, 99⟩ =
      some (⟨2, "u2", "b", false⟩ ::
        spliceRemove [⟨1, "u1", "a", false⟩, ⟨2, "u2", "b", false⟩,
          ⟨3, "u1", "c", false⟩] 1) ∧
    queueInsert [⟨1, "u1", "a", false⟩, ⟨2, "u2", "b", false⟩, ⟨3, "u1", "c", false⟩]
        ⟨4, "u2", "d", false⟩ (QueueAfter.uid 77) =
      ⟨4, "u2", "d", false⟩ ::
        [⟨1, "u1", "a", false⟩, ⟨2, "u2", "b", false⟩, ⟨3, "u1", "c", false⟩] :=
  ⟨(C10_absent_after_reference ⟨_, [], true⟩ ⟨2, 99⟩ ⟨4, "u2", "d", false⟩ 77 1
      ⟨2, "u2", "b", false⟩ rfl (by decide) (by decide) (by decide) (by decide)
      (by decide)).1,
   (C10_absent_after_reference ⟨_, [], true⟩ ⟨2, 99⟩ ⟨4, "u2", "d", false⟩ 77 1
      ⟨2, "u2", "b", false⟩ rfl (by decide) (by decide) (by decide) (by decide)
      (by decide)).2.2.1⟩

end CytubeBot
